import Mathlib

set_option maxHeartbeats 1000000

/-!
Verification of the market data streamer server (server/server.cpp) against its
specification.  The C++ service `MarketDataServiceImpl` is embedded shallowly:

* `PriceUpdate` mirrors the protobuf message `marketdata.PriceUpdate`
  (symbol, price, timestamp); prices are modelled as exact rationals.
* `ServerState` mirrors the two shared fields of the service object:
  `received_prices : std::vector<PriceUpdate>` and
  `price_window : std::deque<double>` (a single window shared by the whole
  service, together with `WINDOW_SIZE = 20`).
* `SendPrice` embeds the body of `MarketDataServiceImpl::SendPrice`:
  push the full tick, push the price onto the window, pop the front if the
  window exceeds `WINDOW_SIZE`, then compute the moving average and emit the
  observability record; the RPC always returns `Status::OK`.
-/

namespace MarketData

/-- Wire message `marketdata.PriceUpdate` from proto/market_data.proto. -/
structure PriceUpdate where
  symbol : String
  price : ℚ
  timestamp : ℤ
deriving DecidableEq

/-- Result of an RPC call: `Status::OK` or an error status. -/
inductive GrpcStatus where
  | ok
  | error
deriving DecidableEq

/-- The shared mutable fields of `MarketDataServiceImpl`. -/
structure ServerState where
  received_prices : List PriceUpdate
  price_window : List ℚ
deriving DecidableEq

/-- `const size_t WINDOW_SIZE = 20;` -/
def WINDOW_SIZE : ℕ := 20

/-- `price_window.push_back(p); if (price_window.size() > WINDOW_SIZE) pop_front();` -/
def pushWindow (w : List ℚ) (p : ℚ) : List ℚ :=
  let grown := w ++ [p]
  if WINDOW_SIZE < grown.length then grown.tail else grown

/-- `double sum = 0.0; for (double p : price_window) sum += p;` -/
def windowSum (w : List ℚ) : ℚ := w.foldl (fun s p => s + p) 0

/-- `double moving_avg = price_window.empty() ? 0.0 : sum / price_window.size();` -/
def movingAvg (w : List ℚ) : ℚ :=
  if w.isEmpty then 0 else windowSum w / (w.length : ℚ)

/-- The observability record printed by `SendPrice`:
`Symbol | Price | MA(window_size) | Timestamp`. -/
structure SendLog where
  symbol : String
  price : ℚ
  window_size : ℕ
  moving_avg : ℚ
  timestamp : ℤ
deriving DecidableEq

/-- Body of `MarketDataServiceImpl::SendPrice` (the whole body runs under
`price_mutex`): store the full tick, push the price into the rolling window,
maintain the window size, compute the moving average, log, return OK. -/
def SendPrice (st : ServerState) (request : PriceUpdate) :
    ServerState × SendLog × GrpcStatus :=
  let received := st.received_prices ++ [request]
  let w := pushWindow st.price_window request.price
  (⟨received, w⟩,
   ⟨request.symbol, request.price, w.length, movingAvg w, request.timestamp⟩,
   GrpcStatus.ok)

/-- Service state at construction: both containers empty. -/
def initState : ServerState := ⟨[], []⟩

/-- State of the service after a sequence of `SendPrice` calls, starting from
the freshly constructed service. -/
def afterIngests (ts : List PriceUpdate) : ServerState :=
  ts.foldl (fun st t => (SendPrice st t).1) initState

/-- The window contents determined by a sequence of pushed prices. -/
def windowOf (ps : List ℚ) : List ℚ := ps.foldl pushWindow []

/-- The observability record of a `SendPrice` call as a function of the
sequence of previously pushed prices only (no per-symbol separation). -/
def logFromPrices (ps : List ℚ) (t : PriceUpdate) : SendLog :=
  let w := pushWindow (windowOf ps) t.price
  ⟨t.symbol, t.price, w.length, movingAvg w, t.timestamp⟩

/-! ### Basic window lemmas -/

theorem pushWindow_eq_drop (w : List ℚ) (p : ℚ) (h : w.length ≤ WINDOW_SIZE) :
    pushWindow w p = (w ++ [p]).drop (w.length + 1 - WINDOW_SIZE) := by
  unfold pushWindow
  simp only [List.length_append, List.length_singleton]
  split
  · have h20 : w.length = WINDOW_SIZE := by
      simp only [WINDOW_SIZE] at *; omega
    have h1 : w.length + 1 - WINDOW_SIZE = 1 := by omega
    rw [h1, List.drop_one]
  · have h0 : w.length + 1 - WINDOW_SIZE = 0 := by
      simp only [WINDOW_SIZE] at *; omega
    rw [h0, List.drop_zero]

theorem pushWindow_length (w : List ℚ) (p : ℚ) (h : w.length ≤ WINDOW_SIZE) :
    (pushWindow w p).length = min WINDOW_SIZE (w.length + 1) := by
  rw [pushWindow_eq_drop w p h, List.length_drop]
  simp only [List.length_append, List.length_singleton, WINDOW_SIZE] at *
  omega

theorem foldl_pushWindow_drop (ps : List ℚ) :
    ∀ w : List ℚ, w.length ≤ WINDOW_SIZE →
      ps.foldl pushWindow w = (w ++ ps).drop ((w ++ ps).length - WINDOW_SIZE) := by
  induction ps with
  | nil =>
    intro w h
    simp only [List.foldl_nil, List.append_nil]
    have : w.length - WINDOW_SIZE = 0 := by omega
    rw [this, List.drop_zero]
  | cons p ps ih =>
    intro w h
    have hlen : (pushWindow w p).length ≤ WINDOW_SIZE := by
      rw [pushWindow_length w p h]; omega
    have hdrop := pushWindow_eq_drop w p h
    rw [List.foldl_cons, ih (pushWindow w p) hlen, hdrop]
    have hle : w.length + 1 - WINDOW_SIZE ≤ (w ++ [p]).length := by
      simp only [List.length_append, List.length_singleton]; omega
    rw [← List.drop_append_of_le_length hle, List.drop_drop]
    have harr : (w ++ [p] ++ ps) = (w ++ p :: ps) := by simp
    rw [harr]
    congr 1
    simp only [List.length_append, List.length_singleton, List.length_drop,
      List.length_cons]
    omega

theorem windowOf_spec (ps : List ℚ) :
    windowOf ps = ps.drop (ps.length - WINDOW_SIZE) := by
  have := foldl_pushWindow_drop ps [] (by simp [WINDOW_SIZE])
  simpa [windowOf] using this

theorem windowOf_length (ps : List ℚ) :
    (windowOf ps).length = min WINDOW_SIZE ps.length := by
  rw [windowOf_spec, List.length_drop]; omega

theorem windowOf_append_singleton (ps : List ℚ) (p : ℚ) :
    windowOf (ps ++ [p]) = pushWindow (windowOf ps) p := by
  simp [windowOf, List.foldl_append]

theorem windowSum_eq_sum (w : List ℚ) : windowSum w = w.sum := by
  have aux : ∀ (l : List ℚ) (a : ℚ), l.foldl (fun s p => s + p) a = a + l.sum := by
    intro l
    induction l with
    | nil => intro a; simp
    | cons x xs ih => intro a; simp [ih, add_assoc]
  simpa [windowSum] using aux w 0

/-! ### The state after a sequence of ingests -/

theorem afterIngests_spec (ts : List PriceUpdate) :
    afterIngests ts = ⟨ts, windowOf (ts.map (fun u => u.price))⟩ := by
  have aux : ∀ (l : List PriceUpdate) (st : ServerState),
      l.foldl (fun st t => (SendPrice st t).1) st =
        ⟨st.received_prices ++ l,
         (l.map (fun u => u.price)).foldl pushWindow st.price_window⟩ := by
    intro l
    induction l with
    | nil => intro st; simp
    | cons t l ih =>
      intro st
      rw [List.foldl_cons, ih]
      simp [SendPrice]
  have := aux ts initState
  simpa [afterIngests, initState, windowOf] using this

theorem SendPrice_state (st : ServerState) (t : PriceUpdate) :
    (SendPrice st t).1 =
      ⟨st.received_prices ++ [t], pushWindow st.price_window t.price⟩ := rfl

theorem SendPrice_log (st : ServerState) (t : PriceUpdate) :
    (SendPrice st t).2.1 =
      ⟨t.symbol, t.price, (pushWindow st.price_window t.price).length,
       movingAvg (pushWindow st.price_window t.price), t.timestamp⟩ := rfl

theorem pushWindow_ne_nil (w : List ℚ) (p : ℚ) : pushWindow w p ≠ [] := by
  unfold pushWindow
  by_cases hc : WINDOW_SIZE < (w ++ [p]).length
  · rw [if_pos hc]
    intro hnil
    have hlen := congrArg List.length hnil
    rw [List.length_tail] at hlen
    simp only [List.length_append, List.length_singleton, List.length_nil] at hlen
    simp only [List.length_append, List.length_singleton, WINDOW_SIZE] at hc
    omega
  · rw [if_neg hc]
    simp

theorem movingAvg_ne_nil (w : List ℚ) (h : w ≠ []) :
    movingAvg w = windowSum w / (w.length : ℚ) := by
  cases w with
  | nil => exact absurd rfl h
  | cons a l => simp [movingAvg]

/-! ### Concrete ticks used in witnesses and counterexamples -/

def tickA : PriceUpdate := ⟨"AAA", 1, 0⟩

def tickTwo : PriceUpdate := ⟨"AAA", 2, 0⟩

def tickB : PriceUpdate := ⟨"BBB", 3, 0⟩

def pre20 : List PriceUpdate := List.replicate 20 tickA

/-! ### C1: the rolling window is shared, not per-symbol -/

/-- C1 (counterexample): the claim says the `(window_size, moving_average)`
pair reported for a tick depends only on prior ingests of that same symbol.
In the code there is a single `price_window` shared by all symbols: ingesting
a tick for symbol "AAA" and then one for symbol "BBB" reports `(2, 2)` for the
"BBB" tick, while with no prior "AAA" ingest the very same "BBB" tick reports
`(1, 3)` — the "BBB"-only history (empty) is identical in both runs, so the
reported pair does depend on ingests of other symbols. -/
theorem C1_counterexample :
    ([tickA].filter (fun t => t.symbol == "BBB") = ([] : List PriceUpdate)) ∧
    (SendPrice (afterIngests []) tickB).2.1.window_size = 1 ∧
    (SendPrice (afterIngests []) tickB).2.1.moving_avg = 3 ∧
    (SendPrice (afterIngests [tickA]) tickB).2.1.window_size = 2 ∧
    (SendPrice (afterIngests [tickA]) tickB).2.1.moving_avg = 2 := by
  refine ⟨by decide, rfl, ?_, rfl, ?_⟩
  · show movingAvg (pushWindow [] tickB.price) = 3
    norm_num [movingAvg, windowSum, pushWindow, WINDOW_SIZE, tickB]
  · show movingAvg (pushWindow (pushWindow [] tickA.price) tickB.price) = 2
    norm_num [movingAvg, windowSum, pushWindow, WINDOW_SIZE, tickA, tickB]

/-- C1 (amended): every `SendPrice` call pushes the tick's price into the
single rolling window shared by the whole service (no window is created per
symbol), so the reported `(window_size, moving_average)` pair is a function of
the sequence of ALL previously ingested prices regardless of their symbols;
the full tick history is kept in `received_prices` in arrival order. -/
theorem C1_amended_thm (ts : List PriceUpdate) (t : PriceUpdate) :
    (SendPrice (afterIngests ts) t).2.1 =
      logFromPrices (ts.map (fun u => u.price)) t ∧
    (afterIngests ts).price_window = windowOf (ts.map (fun u => u.price)) ∧
    (afterIngests ts).received_prices = ts := by
  rw [afterIngests_spec]
  exact ⟨rfl, rfl, rfl⟩

/-! ### C2: FIFO eviction at capacity -/

/-- C2: when the window is at capacity, the moving average reported by
`SendPrice` is the arithmetic mean of exactly the most recent `WINDOW_SIZE`
ingested prices: after at least 20 prior ingests the report shows window size
20, the retained suffix has exactly 20 elements, the reported average is the
sum of that suffix divided by 20, and after `capacity + 1` ingests the window
is the price sequence with its first element dropped (FIFO eviction of the
oldest). -/
theorem C2_thm (pre : List PriceUpdate) (t : PriceUpdate) (h : 19 ≤ pre.length) :
    (SendPrice (afterIngests pre) t).2.1.window_size = WINDOW_SIZE ∧
    ((pre.map (fun u => u.price) ++ [t.price]).drop
        (pre.length + 1 - WINDOW_SIZE)).length = WINDOW_SIZE ∧
    (SendPrice (afterIngests pre) t).2.1.moving_avg =
      ((pre.map (fun u => u.price) ++ [t.price]).drop
        (pre.length + 1 - WINDOW_SIZE)).sum / (WINDOW_SIZE : ℚ) ∧
    (pre.length = WINDOW_SIZE →
      (SendPrice (afterIngests pre) t).1.price_window =
        (pre.map (fun u => u.price) ++ [t.price]).drop 1) := by
  have hw : pushWindow (afterIngests pre).price_window t.price =
      (pre.map (fun u => u.price) ++ [t.price]).drop
        (pre.length + 1 - WINDOW_SIZE) := by
    rw [afterIngests_spec]
    show pushWindow (windowOf (pre.map fun u => u.price)) t.price = _
    rw [← windowOf_append_singleton, windowOf_spec]
    congr 1
    simp
  have hlen : ((pre.map (fun u => u.price) ++ [t.price]).drop
      (pre.length + 1 - WINDOW_SIZE)).length = WINDOW_SIZE := by
    rw [List.length_drop]
    simp only [List.length_append, List.length_map, List.length_singleton]
    simp only [WINDOW_SIZE] at *
    omega
  have hne : pushWindow (afterIngests pre).price_window t.price ≠ [] :=
    pushWindow_ne_nil _ _
  refine ⟨?_, hlen, ?_, ?_⟩
  · rw [SendPrice_log]
    show (pushWindow (afterIngests pre).price_window t.price).length = _
    rw [hw, hlen]
  · rw [SendPrice_log]
    show movingAvg (pushWindow (afterIngests pre).price_window t.price) = _
    rw [movingAvg_ne_nil _ hne, windowSum_eq_sum, hw, hlen]
  · intro h20
    rw [SendPrice_state]
    show pushWindow (afterIngests pre).price_window t.price = _
    rw [hw, h20]
    norm_num [WINDOW_SIZE]

/-- C2 (witness): twenty ingests of price 1 followed by one of price 2 report
window size 20 and moving average `(19 * 1 + 2) / 20 = 21/20`. -/
theorem C2_witness :
    (SendPrice (afterIngests pre20) tickTwo).2.1.window_size = WINDOW_SIZE ∧
    (SendPrice (afterIngests pre20) tickTwo).2.1.moving_avg = 21 / 20 := by
  refine ⟨(C2_thm pre20 tickTwo (by decide)).1, ?_⟩
  have h := (C2_thm pre20 tickTwo (by decide)).2.2.1
  rw [h]
  have hmap : pre20.map (fun u => u.price) = List.replicate 20 (1 : ℚ) := by
    simp [pre20, tickA]
  have hlen20 : pre20.length = 20 := by simp [pre20]
  rw [hmap, hlen20]
  have hidx : (20 : ℕ) + 1 - WINDOW_SIZE = 1 := by norm_num [WINDOW_SIZE]
  rw [hidx, show (20 : ℕ) = 19 + 1 from rfl, List.replicate_succ]
  simp only [List.cons_append, List.drop_succ_cons, List.drop_zero]
  rw [List.sum_append, List.sum_replicate]
  norm_num [tickTwo, WINDOW_SIZE]

/-! ### C3: reported window size is min(capacity, number of ingests) -/

/-- C3: after `n` ingest calls all carrying the same symbol, the window length
(the size reported by the last call) is `min WINDOW_SIZE n`, and after any
prefix of the call sequence the window length never exceeds `WINDOW_SIZE`. -/
theorem C3_thm (s : String) (ts : List PriceUpdate)
    (h : ∀ t ∈ ts, t.symbol = s) :
    (afterIngests ts).price_window.length = min WINDOW_SIZE ts.length ∧
    ∀ n : ℕ, (afterIngests (ts.take n)).price_window.length ≤ WINDOW_SIZE := by
  constructor
  · rw [afterIngests_spec]
    show (windowOf (ts.map fun u => u.price)).length = _
    rw [windowOf_length]
    simp
  · intro n
    rw [afterIngests_spec]
    show (windowOf ((ts.take n).map fun u => u.price)).length ≤ _
    rw [windowOf_length]
    omega

/-- C3 (witness): three ingests of symbol "AAA" leave a window of length
`min 20 3 = 3`, and after the first two the length is at most 20. -/
theorem C3_witness :
    (afterIngests [tickA, tickTwo, tickA]).price_window.length =
      min WINDOW_SIZE 3 ∧
    (afterIngests ([tickA, tickTwo, tickA].take 2)).price_window.length ≤
      WINDOW_SIZE :=
  ⟨(C3_thm "AAA" [tickA, tickTwo, tickA] (by decide)).1,
   (C3_thm "AAA" [tickA, tickTwo, tickA] (by decide)).2 2⟩

/-! ### C10: the empty-window fallback is unreachable inside SendPrice -/

/-- C10: in every `SendPrice` call the moving average is computed after the
new price has been pushed, so the window is non-empty at that point: the
reported size is strictly positive and the reported average is the
`sum / size` branch, never the `0.0` empty-window fallback. -/
theorem C10_thm (st : ServerState) (t : PriceUpdate) :
    (SendPrice st t).1.price_window ≠ [] ∧
    0 < (SendPrice st t).2.1.window_size ∧
    (SendPrice st t).2.1.moving_avg =
      windowSum ((SendPrice st t).1.price_window) /
        (((SendPrice st t).1.price_window).length : ℚ) := by
  have hne := pushWindow_ne_nil st.price_window t.price
  refine ⟨?_, ?_, ?_⟩
  · rw [SendPrice_state]
    exact hne
  · rw [SendPrice_log]
    show 0 < (pushWindow st.price_window t.price).length
    exact List.length_pos.mpr hne
  · rw [SendPrice_log, SendPrice_state]
    show movingAvg (pushWindow st.price_window t.price) = _
    exact movingAvg_ne_nil _ hne

/-!
### StreamPrices: the streaming dispatcher

`MarketDataServiceImpl::StreamPrices` seeds a per-call `std::map` from the
requested symbols (each at 100.0, duplicates overwriting), then loops: poll
`context->IsCancelled()` at the top, and otherwise walk the map in key order,
drawing `change = (std::rand() % 200 - 100) / 100.0` per symbol, writing the
update, and storing the new price.  The model takes the oracle streams
explicitly: `cancel i` is the poll result at the top of iteration `i`, `rng d`
is the `d`-th draw of `std::rand()` (a nonnegative integer), `clock d` is
`std::time(0)` at the `d`-th write, and `writeOk d` is the success of the
`d`-th `writer->Write` — the code never inspects that result.  The unbounded
`while (true)` is given fuel; `none` means the loop was still running.
-/

/-- `double change = (std::rand() % 200 - 100) / 100.0;` for a draw `r`. -/
def stepVal (r : ℕ) : ℚ := ((((r % 200 : ℕ) : ℤ) - 100 : ℤ) : ℚ) / 100

/-- The 200 cent-increment steps from -1.00 to +0.99. -/
def stepSet : Finset ℚ :=
  (Finset.Icc (-100 : ℤ) 99).image (fun k : ℤ => (k : ℚ) / 100)

/-- `symbol_prices[symbol] = v;` with `std::map` semantics: keys kept in
increasing order, an existing key overwritten in place. -/
def insertPrice (s : String) (v : ℚ) : List (String × ℚ) → List (String × ℚ)
  | [] => [(s, v)]
  | (k, x) :: rest =>
    if s < k then (s, v) :: (k, x) :: rest
    else if s = k then (s, v) :: rest
    else (k, x) :: insertPrice s v rest

/-- The seeding loop: `for i in request.symbols: symbol_prices[symbol] = 100.0`. -/
def initPrices (symbols : List String) : List (String × ℚ) :=
  symbols.foldl (fun m s => insertPrice s 100 m) []

/-- `std::map::find`-style lookup in the association list. -/
def lookupPrice (s : String) : List (String × ℚ) → Option ℚ
  | [] => none
  | (k, x) :: rest => if s = k then some x else lookupPrice s rest

/-- One pass of the inner `for` over `symbol_prices`, starting at draw index
`idx`: per entry draw a step, compute the new price, write the update, store
the new price.  Returns the updated map and the updates written, in order. -/
def runRow (rng : ℕ → ℕ) (clock : ℕ → ℤ) :
    ℕ → List (String × ℚ) → List (String × ℚ) × List PriceUpdate
  | _, [] => ([], [])
  | idx, (s, p) :: rest =>
    let np := p + stepVal (rng idx)
    let r := runRow rng clock (idx + 1) rest
    ((s, np) :: r.1, ⟨s, np, clock idx⟩ :: r.2)

/-- The map after `k` full (uncancelled) iterations of the outer loop. -/
def mapAfter (rng : ℕ → ℕ) (clock : ℕ → ℤ) :
    ℕ → ℕ → List (String × ℚ) → List (String × ℚ)
  | 0, _, m => m
  | k + 1, idx, m => mapAfter rng clock k (idx + m.length) (runRow rng clock idx m).1

/-- The updates written during the first `k` full iterations, in order. -/
def rowsUpdates (rng : ℕ → ℕ) (clock : ℕ → ℤ) :
    ℕ → ℕ → List (String × ℚ) → List PriceUpdate
  | 0, _, _ => []
  | k + 1, idx, m =>
    (runRow rng clock idx m).2 ++
      rowsUpdates rng clock k (idx + m.length) (runRow rng clock idx m).1

/-- The `while (true)` dispatcher loop of `StreamPrices`. -/
def streamLoop (cancel : ℕ → Bool) (rng : ℕ → ℕ) (clock : ℕ → ℤ)
    (writeOk : ℕ → Bool) :
    ℕ → ℕ → ℕ → List (String × ℚ) → Option (List PriceUpdate × GrpcStatus)
  | 0, _, _, _ => none
  | fuel + 1, iter, idx, m =>
    if cancel iter then some ([], GrpcStatus.ok)
    else
      match streamLoop cancel rng clock writeOk fuel (iter + 1) (idx + m.length)
          (runRow rng clock idx m).1 with
      | none => none
      | some (rest, st) => some ((runRow rng clock idx m).2 ++ rest, st)

/-- The whole `StreamPrices` handler: seed `symbol_prices` from the request
and run the dispatcher.  The shared service state is in scope (the handler is
a method of the service object) but is neither read nor written. -/
def StreamPrices (st : ServerState) (request : List String)
    (cancel : ℕ → Bool) (rng : ℕ → ℕ) (clock : ℕ → ℤ) (writeOk : ℕ → Bool)
    (fuel : ℕ) :
    ServerState × Option (List PriceUpdate × GrpcStatus) :=
  (st, streamLoop cancel rng clock writeOk fuel 0 0 (initPrices request))

/-! ### C4: the per-symbol price step -/

/-- C4 (counterexample): the claim says every value of the step set, including
`+1.00`, is attained.  The formula `(rand() % 200 - 100) / 100.0` has
`rand() % 200 ≤ 199`, so its value is at most `0.99`: no rng draw yields a
step of `+1.00`. -/
theorem C4_counterexample : ¬ ∃ r : ℕ, stepVal r = 1 := by
  rintro ⟨r, hr⟩
  have hm : r % 200 < 200 := Nat.mod_lt _ (by norm_num)
  unfold stepVal at hr
  rw [div_eq_one_iff_eq (by norm_num : (100 : ℚ) ≠ 0)] at hr
  have h100 : ((r % 200 : ℕ) : ℤ) - 100 = 100 := by exact_mod_cast hr
  omega

/-- C4 (amended): every rng draw produces a step in the discrete uniform set
`{-1.00, -0.99, …, 0.98, 0.99}` (cent increments from -100 to +99 cents, 200
values, as produced by `(rand() % 200 - 100) / 100.0`), and every value of
that set — with maximum `+0.99`, not `+1.00` — is attained for some draw:
the range of `stepVal` is exactly `stepSet`. -/
theorem C4_amended_thm : Set.range stepVal = (stepSet : Set ℚ) := by
  ext q
  simp only [Set.mem_range, stepSet, Finset.coe_image, Set.mem_image,
    Finset.mem_coe, Finset.mem_Icc]
  constructor
  · rintro ⟨r, rfl⟩
    have hm : r % 200 < 200 := Nat.mod_lt _ (by norm_num)
    exact ⟨((r % 200 : ℕ) : ℤ) - 100, ⟨by omega, by omega⟩, rfl⟩
  · rintro ⟨k, ⟨hk1, hk2⟩, rfl⟩
    refine ⟨(k + 100).toNat, ?_⟩
    have h2 : ((((k + 100).toNat % 200 : ℕ) : ℤ) - 100) = k := by
      have h1 : (k + 100).toNat % 200 = (k + 100).toNat :=
        Nat.mod_eq_of_lt (by omega)
      rw [h1]; omega
    unfold stepVal
    rw [h2]

/-! ### Lemmas about the per-call symbol map -/

theorem lookup_insertPrice (a s : String) (v : ℚ) (m : List (String × ℚ)) :
    lookupPrice a (insertPrice s v m) =
      if a = s then some v else lookupPrice a m := by
  induction m with
  | nil => simp [insertPrice, lookupPrice]
  | cons e rest ih =>
    obtain ⟨k, x⟩ := e
    by_cases hlt : s < k
    · simp [insertPrice, hlt, lookupPrice]
    · by_cases heq : s = k
      · subst heq
        simp only [insertPrice, hlt, if_neg (lt_irrefl s), if_pos rfl, if_true]
        by_cases ha : a = s <;> simp [lookupPrice, ha]
      · have hks : k < s := lt_of_le_of_ne (not_lt.mp hlt) (Ne.symm heq)
        simp only [insertPrice, if_neg hlt, if_neg heq]
        by_cases hak : a = k
        · subst hak
          have has : a ≠ s := ne_of_lt hks
          simp [lookupPrice, has]
        · simp [lookupPrice, hak, ih]

theorem lookup_initPrices (symbols : List String) (a : String) :
    lookupPrice a (initPrices symbols) =
      if a ∈ symbols then some (100 : ℚ) else none := by
  have aux : ∀ (l : List String) (m : List (String × ℚ)),
      lookupPrice a (l.foldl (fun m s => insertPrice s 100 m) m) =
        if a ∈ l then some (100 : ℚ) else lookupPrice a m := by
    intro l
    induction l with
    | nil => intro m; simp
    | cons s l ih =>
      intro m
      rw [List.foldl_cons, ih]
      by_cases hl : a ∈ l
      · simp [hl]
      · by_cases has : a = s
        · subst has
          simp [hl, lookup_insertPrice]
        · simp [hl, has, lookup_insertPrice]
  have := aux symbols []
  simpa [initPrices, lookupPrice] using this

/-- Keys of the map are strictly increasing (std::map order). -/
def KeysSorted (m : List (String × ℚ)) : Prop :=
  m.Pairwise (fun a b => a.1 < b.1)

theorem mem_insertPrice (s : String) (v : ℚ) (m : List (String × ℚ)) :
    ∀ e ∈ insertPrice s v m, e = (s, v) ∨ e ∈ m := by
  induction m with
  | nil =>
    intro e he
    simp only [insertPrice, List.mem_singleton] at he
    exact Or.inl he
  | cons f rest ih =>
    obtain ⟨k, x⟩ := f
    intro e he
    by_cases hlt : s < k
    · simp only [insertPrice, if_pos hlt, List.mem_cons] at he
      rcases he with h | hr
      · exact Or.inl h
      · exact Or.inr (List.mem_cons.mpr hr)
    · by_cases heq : s = k
      · simp only [insertPrice, if_neg hlt, if_pos heq, List.mem_cons] at he
        rcases he with h | hr
        · exact Or.inl h
        · exact Or.inr (List.mem_cons.mpr (Or.inr hr))
      · simp only [insertPrice, if_neg hlt, if_neg heq, List.mem_cons] at he
        rcases he with h | hr
        · exact Or.inr (List.mem_cons.mpr (Or.inl h))
        · rcases ih e hr with h1 | h1
          · exact Or.inl h1
          · exact Or.inr (List.mem_cons.mpr (Or.inr h1))

theorem insertPrice_sorted (s : String) (v : ℚ) (m : List (String × ℚ))
    (hm : KeysSorted m) : KeysSorted (insertPrice s v m) := by
  induction m with
  | nil => simp [insertPrice, KeysSorted]
  | cons f rest ih =>
    obtain ⟨k, x⟩ := f
    rw [KeysSorted, List.pairwise_cons] at hm
    obtain ⟨hk, hrest⟩ := hm
    by_cases hlt : s < k
    · rw [KeysSorted]
      simp only [insertPrice, if_pos hlt]
      rw [List.pairwise_cons]
      constructor
      · intro e he
        rw [List.mem_cons] at he
        rcases he with h | h
        · simp [h, hlt]
        · exact lt_trans hlt (hk e h)
      · rw [List.pairwise_cons]
        exact ⟨hk, hrest⟩
    · by_cases heq : s = k
      · subst heq
        rw [KeysSorted]
        simp only [insertPrice, if_neg hlt, if_pos rfl, if_neg (lt_irrefl s), if_true]
        rw [List.pairwise_cons]
        exact ⟨hk, hrest⟩
      · have hks : k < s := lt_of_le_of_ne (not_lt.mp hlt) (Ne.symm heq)
        rw [KeysSorted]
        simp only [insertPrice, if_neg hlt, if_neg heq]
        rw [List.pairwise_cons]
        constructor
        · intro e he
          rcases mem_insertPrice s v rest e he with h | h
          · simp [h, hks]
          · exact hk e h
        · exact ih hrest

theorem initPrices_sorted (symbols : List String) :
    KeysSorted (initPrices symbols) := by
  have aux : ∀ (l : List String) (m : List (String × ℚ)),
      KeysSorted m → KeysSorted (l.foldl (fun m s => insertPrice s 100 m) m) := by
    intro l
    induction l with
    | nil => intro m hm; exact hm
    | cons s l ih =>
      intro m hm
      exact ih _ (insertPrice_sorted s 100 m hm)
  exact aux symbols [] (by simp [KeysSorted])

theorem initPrices_values (symbols : List String) :
    ∀ e ∈ initPrices symbols, e.2 = (100 : ℚ) := by
  have aux : ∀ (l : List String) (m : List (String × ℚ)),
      (∀ e ∈ m, e.2 = (100 : ℚ)) →
      ∀ e ∈ l.foldl (fun m s => insertPrice s 100 m) m, e.2 = (100 : ℚ) := by
    intro l
    induction l with
    | nil => intro m hm; exact hm
    | cons s l ih =>
      intro m hm
      refine ih _ ?_
      intro e he
      rcases mem_insertPrice s 100 m e he with h | h
      · rw [h]
      · exact hm e h
  exact aux symbols [] (by intro e he; simp at he)

theorem runRow_fst_length (rng : ℕ → ℕ) (clock : ℕ → ℤ) (m : List (String × ℚ)) :
    ∀ idx : ℕ, ((runRow rng clock idx m).1).length = m.length := by
  induction m with
  | nil => intro idx; rfl
  | cons e rest ih =>
    intro idx
    obtain ⟨s, p⟩ := e
    simp only [runRow, List.length_cons]
    rw [ih]

theorem runRow_fst_get? (rng : ℕ → ℕ) (clock : ℕ → ℤ) (m : List (String × ℚ)) :
    ∀ (idx j : ℕ),
      ((runRow rng clock idx m).1).get? j =
        (m.get? j).map (fun e => (e.1, e.2 + stepVal (rng (idx + j)))) := by
  induction m with
  | nil => intro idx j; rfl
  | cons e rest ih =>
    intro idx j
    obtain ⟨s, p⟩ := e
    cases j with
    | zero => simp [runRow]
    | succ j =>
      simp only [runRow, List.get?_cons_succ]
      rw [ih (idx + 1) j]
      have harith : idx + 1 + j = idx + (j + 1) := by omega
      rw [harith]

theorem mapAfter_length (rng : ℕ → ℕ) (clock : ℕ → ℤ) (k : ℕ) :
    ∀ (idx : ℕ) (m : List (String × ℚ)),
      (mapAfter rng clock k idx m).length = m.length := by
  induction k with
  | zero => intro idx m; rfl
  | succ k ih =>
    intro idx m
    show (mapAfter rng clock k (idx + m.length) (runRow rng clock idx m).1).length = _
    rw [ih, runRow_fst_length]

theorem mapAfter_get? (rng : ℕ → ℕ) (clock : ℕ → ℤ) (k : ℕ) :
    ∀ (idx : ℕ) (m : List (String × ℚ)) (j : ℕ),
      (mapAfter rng clock k idx m).get? j =
        (m.get? j).map (fun e =>
          (e.1, e.2 + ∑ i ∈ Finset.range k, stepVal (rng (idx + i * m.length + j)))) := by
  induction k with
  | zero =>
    intro idx m j
    show m.get? j = _
    cases h : m.get? j <;> simp [h]
  | succ k ih =>
    intro idx m j
    show (mapAfter rng clock k (idx + m.length) (runRow rng clock idx m).1).get? j = _
    rw [ih, runRow_fst_length, runRow_fst_get?, Option.map_map]
    cases h : m.get? j with
    | none => simp
    | some e =>
      simp only [Option.map_some', Option.some.injEq, Function.comp]
      refine Prod.ext rfl ?_
      show e.2 + stepVal (rng (idx + j)) +
          ∑ i ∈ Finset.range k, stepVal (rng (idx + m.length + i * m.length + j)) = _
      rw [add_assoc, Finset.sum_range_succ']
      congr 1
      rw [add_comm]
      congr 1
      · refine Finset.sum_congr rfl (fun i hi => ?_)
        congr 1
        ring_nf
      · congr 1
        ring_nf

theorem initPrices_keys_nodup (symbols : List String) :
    ((initPrices symbols).map Prod.fst).Nodup := by
  have h := initPrices_sorted symbols
  rw [KeysSorted] at h
  unfold List.Nodup
  rw [List.pairwise_map]
  exact h.imp (fun hab => ne_of_lt hab)

/-! ### C5: session seeding and price trajectory -/

/-- C5: `StreamPrices` seeds its per-call map with every requested symbol at
price 100.0 and nothing else (duplicates collapse: lookups hit one entry and
the key list has no duplicates), and after `k` loop iterations the `j`-th
tracked symbol's stored (and last emitted) price is `100 + the sum of the k
steps drawn for that symbol` — the draws at rng indices `i * n + j` for
`i < k`, where `n` is the number of tracked symbols. -/
theorem C5_thm (symbols : List String) (rng : ℕ → ℕ) (clock : ℕ → ℤ) (k : ℕ) :
    (∀ s : String, lookupPrice s (initPrices symbols) =
        if s ∈ symbols then some (100 : ℚ) else none) ∧
    ((initPrices symbols).map Prod.fst).Nodup ∧
    (∀ j : ℕ, j < (initPrices symbols).length →
      (mapAfter rng clock k 0 (initPrices symbols)).get? j =
        ((initPrices symbols).get? j).map (fun e =>
          (e.1, (100 : ℚ) + ∑ i ∈ Finset.range k,
            stepVal (rng (i * (initPrices symbols).length + j))))) := by
  refine ⟨fun s => lookup_initPrices symbols s, initPrices_keys_nodup symbols, ?_⟩
  intro j hj
  rw [mapAfter_get?]
  have hsum : ∀ x : ℚ,
      x + ∑ i ∈ Finset.range k,
        stepVal (rng (0 + i * (initPrices symbols).length + j)) =
      x + ∑ i ∈ Finset.range k,
        stepVal (rng (i * (initPrices symbols).length + j)) := by
    intro x
    congr 1
    refine Finset.sum_congr rfl (fun i hi => ?_)
    rw [Nat.zero_add]
  rw [List.get?_eq_get hj]
  have hmem : (initPrices symbols).get ⟨j, hj⟩ ∈ initPrices symbols :=
    List.get_mem _ j hj
  have h100 := initPrices_values symbols _ hmem
  simp only [Option.map_some']
  rw [h100, hsum 100]

/-- C5 (witness): a session for symbol "BTCUSDT" is seeded at 100 and after
one iteration its stored price is `100` plus the step drawn for it. -/
theorem C5_witness :
    (mapAfter (fun d => d) (fun _ => 0) 1 0
        (initPrices ["BTCUSDT"])).get? 0 =
      ((initPrices ["BTCUSDT"]).get? 0).map (fun e =>
        (e.1, (100 : ℚ) + ∑ i ∈ Finset.range 1,
          stepVal ((fun d => d)
            (i * (initPrices ["BTCUSDT"]).length + 0)))) :=
  (C5_thm ["BTCUSDT"] (fun d => d) (fun _ => 0) 1).2.2 0 (by decide)

/-! ### C6: cancellation is polled at the top of every iteration -/

theorem streamLoop_spec (cancel : ℕ → Bool) (rng : ℕ → ℕ) (clock : ℕ → ℤ)
    (writeOk : ℕ → Bool) (j : ℕ) :
    ∀ (fuel iter idx : ℕ) (m : List (String × ℚ)),
      cancel (iter + j) = true → (∀ i, i < j → cancel (iter + i) = false) →
      j < fuel →
      streamLoop cancel rng clock writeOk fuel iter idx m =
        some (rowsUpdates rng clock j idx m, GrpcStatus.ok) := by
  induction j with
  | zero =>
    intro fuel iter idx m hc hmin hfuel
    cases fuel with
    | zero => omega
    | succ f =>
      have hc' : cancel iter = true := by simpa using hc
      simp [streamLoop, hc', rowsUpdates]
  | succ j ih =>
    intro fuel iter idx m hc hmin hfuel
    cases fuel with
    | zero => omega
    | succ f =>
      have h0 : cancel iter = false := by
        simpa using hmin 0 (Nat.succ_pos j)
      have hc' : cancel (iter + 1 + j) = true := by
        have harith : iter + 1 + j = iter + (j + 1) := by omega
        rw [harith]; exact hc
      have hmin' : ∀ i, i < j → cancel (iter + 1 + i) = false := by
        intro i hi
        have harith : iter + 1 + i = iter + (i + 1) := by omega
        rw [harith]
        exact hmin (i + 1) (by omega)
      have hrec := ih f (iter + 1) (idx + m.length) (runRow rng clock idx m).1
        hc' hmin' (by omega)
      simp only [streamLoop, h0, Bool.false_eq_true, if_false]
      rw [hrec]
      simp [rowsUpdates]

/-- C6: the dispatcher polls `IsCancelled` at the top of every iteration.  If
the first `true` poll is at iteration `j` (and the fuel outlasts it), the call
returns within that iteration with the non-error status `OK`, and the updates
written are exactly those of the `j` complete iterations before cancellation
was observed — nothing is emitted at or after the observing iteration. -/
theorem C6_thm (st : ServerState) (symbols : List String) (cancel : ℕ → Bool)
    (rng : ℕ → ℕ) (clock : ℕ → ℤ) (writeOk : ℕ → Bool) (fuel j : ℕ)
    (hj : cancel j = true) (hmin : ∀ i, i < j → cancel i = false)
    (hfuel : j < fuel) :
    (StreamPrices st symbols cancel rng clock writeOk fuel).2 =
      some (rowsUpdates rng clock j 0 (initPrices symbols), GrpcStatus.ok) :=
  streamLoop_spec cancel rng clock writeOk j fuel 0 0 (initPrices symbols)
    (by simpa using hj) (by simpa using hmin) hfuel

/-- C6 (witness): cancellation first observed at iteration 1 of a
single-symbol stream: the call completes with `OK` after emitting exactly the
updates of iteration 0. -/
theorem C6_witness :
    (StreamPrices initState ["AAA"] (fun i => decide (1 ≤ i)) (fun d => d)
        (fun _ => 0) (fun _ => true) 3).2 =
      some (rowsUpdates (fun d => d) (fun _ => 0) 1 0 (initPrices ["AAA"]),
        GrpcStatus.ok) :=
  C6_thm initState ["AAA"] (fun i => decide (1 ≤ i)) (fun d => d) (fun _ => 0)
    (fun _ => true) 3 1 (by decide)
    (by
      intro i hi
      have h0 : i = 0 := by omega
      subst h0
      decide)
    (by omega)

/-! ### C7: write failures are ignored, not treated as cancellation -/

/-- C7 (counterexample): the claim says a failed `writer->Write` makes the
dispatcher stop emitting further updates and return.  The code discards the
result of `writer->Write`, so the run does not depend on it at all: here every
write fails (`writeOk` is constantly `false`), yet the dispatcher writes two
updates — the second one after the first write already failed — and only
returns when the `IsCancelled` poll at the top of iteration 2 observes
cancellation. -/
theorem C7_counterexample :
    (StreamPrices initState ["AAA"] (fun i => decide (2 ≤ i)) (fun d => d)
        (fun _ => 0) (fun _ => false) 5).2 =
      some (rowsUpdates (fun d => d) (fun _ => 0) 2 0 (initPrices ["AAA"]),
        GrpcStatus.ok) ∧
    (rowsUpdates (fun d => d) (fun _ => 0) 2 0 (initPrices ["AAA"])).length = 2 := by
  constructor
  · exact streamLoop_spec (fun i => decide (2 ≤ i)) (fun d => d) (fun _ => 0)
      (fun _ => false) 2 5 0 0 (initPrices ["AAA"]) (by decide)
      (by
        intro i hi
        interval_cases i <;> decide)
      (by omega)
  · simp [rowsUpdates, runRow, initPrices, insertPrice]

theorem streamLoop_writeOk_irrel (cancel : ℕ → Bool) (rng : ℕ → ℕ)
    (clock : ℕ → ℤ) (w1 w2 : ℕ → Bool) (fuel : ℕ) :
    ∀ (iter idx : ℕ) (m : List (String × ℚ)),
      streamLoop cancel rng clock w1 fuel iter idx m =
        streamLoop cancel rng clock w2 fuel iter idx m := by
  induction fuel with
  | zero => intro iter idx m; rfl
  | succ f ih =>
    intro iter idx m
    simp only [streamLoop]
    rw [ih]

/-- C7 (amended): the dispatcher never inspects the result of
`writer->Write`: the entire outcome of `StreamPrices` (service state, updates
written, final status) is identical under any two write-outcome schedules.  A
dead client therefore stops the stream only through the cancellation poll at
the top of the next iteration, not through the failed write itself; writes
keep being attempted until that poll observes cancellation. -/
theorem C7_amended_thm (st : ServerState) (symbols : List String)
    (cancel : ℕ → Bool) (rng : ℕ → ℕ) (clock : ℕ → ℤ)
    (w1 w2 : ℕ → Bool) (fuel : ℕ) :
    StreamPrices st symbols cancel rng clock w1 fuel =
      StreamPrices st symbols cancel rng clock w2 fuel := by
  unfold StreamPrices
  rw [streamLoop_writeOk_irrel cancel rng clock w1 w2 fuel]

/-! ### C8: streaming is independent of the ingestion state -/

/-- C8: the update stream of `StreamPrices` does not depend on the service's
shared `received_prices` / `price_window` state: two runs with the same
request, rng stream, clock, write outcomes and cancellation schedule produce
identical output from any two service states, and the handler leaves the
service state exactly as it found it (it neither reads nor mutates
`TickStore` state). -/
theorem C8_thm (st1 st2 : ServerState) (symbols : List String)
    (cancel : ℕ → Bool) (rng : ℕ → ℕ) (clock : ℕ → ℤ) (writeOk : ℕ → Bool)
    (fuel : ℕ) :
    (StreamPrices st1 symbols cancel rng clock writeOk fuel).2 =
      (StreamPrices st2 symbols cancel rng clock writeOk fuel).2 ∧
    (StreamPrices st1 symbols cancel rng clock writeOk fuel).1 = st1 :=
  ⟨rfl, rfl⟩

/-!
### C9: concurrent SendPrice calls under price_mutex

`SendPrice`'s body runs under `std::lock_guard<std::mutex> lock(price_mutex)`.
We model `n` caller threads, thread `i` executing one `SendPrice` with tick
`ticks i`, at the granularity of the individual mutations of the shared
fields: acquire the mutex, `received_prices.push_back`, `price_window.push_back`,
the size-maintenance `pop_front`, and release (the average computation is a
pure read performed while the mutex is held).  A scheduler interleaves the
threads arbitrarily; acquisition blocks while the mutex is held.
-/

/-- Program counter of one caller thread executing `SendPrice`. -/
inductive PC where
  | start
  | locked
  | pushedTick
  | pushedPrice
  | evicted
  | done
deriving DecidableEq

/-- Whether a thread at this pc holds the mutex (is in the critical section). -/
def PC.inCS : PC → Bool
  | .start => false
  | .done => false
  | _ => true

/-- Whether a thread at this pc has already executed `received_prices.push_back`. -/
def PC.pastTick : PC → Bool
  | .pushedTick => true
  | .pushedPrice => true
  | .evicted => true
  | .done => true
  | _ => false

/-- Global state of the interleaved system: the mutex owner (if held), the
shared service fields, and each thread's program counter. -/
structure Conc (n : ℕ) where
  lock : Option (Fin n)
  shared : ServerState
  pcs : Fin n → PC

/-- Initial state: mutex free, service freshly constructed, no thread started. -/
def concInit (n : ℕ) : Conc n := ⟨none, initState, fun _ => PC.start⟩

/-- One atomic step of the interleaved system: the scheduler picks a thread
`i`, which executes its next statement of `SendPrice`. -/
inductive ConcStep (n : ℕ) (ticks : Fin n → PriceUpdate) :
    Conc n → Conc n → Prop where
  | acquire (i : Fin n) (s : Conc n) (hpc : s.pcs i = PC.start)
      (hlock : s.lock = none) :
      ConcStep n ticks s
        ⟨some i, s.shared, Function.update s.pcs i PC.locked⟩
  | pushTick (i : Fin n) (s : Conc n) (hpc : s.pcs i = PC.locked) :
      ConcStep n ticks s
        ⟨s.lock,
         ⟨s.shared.received_prices ++ [ticks i], s.shared.price_window⟩,
         Function.update s.pcs i PC.pushedTick⟩
  | pushPrice (i : Fin n) (s : Conc n) (hpc : s.pcs i = PC.pushedTick) :
      ConcStep n ticks s
        ⟨s.lock,
         ⟨s.shared.received_prices,
          s.shared.price_window ++ [(ticks i).price]⟩,
         Function.update s.pcs i PC.pushedPrice⟩
  | evict (i : Fin n) (s : Conc n) (hpc : s.pcs i = PC.pushedPrice) :
      ConcStep n ticks s
        ⟨s.lock,
         ⟨s.shared.received_prices,
          if WINDOW_SIZE < s.shared.price_window.length then
            s.shared.price_window.tail
          else s.shared.price_window⟩,
         Function.update s.pcs i PC.evicted⟩
  | release (i : Fin n) (s : Conc n) (hpc : s.pcs i = PC.evicted) :
      ConcStep n ticks s ⟨none, s.shared, Function.update s.pcs i PC.done⟩

/-- Reachability from the initial state under arbitrary interleaving. -/
def ConcReach (n : ℕ) (ticks : Fin n → PriceUpdate) : Conc n → Prop :=
  Relation.ReflTransGen (ConcStep n ticks) (concInit n)

/-- The inductive invariant: (A) a thread in the critical section owns the
mutex; (B) the tick history length counts the threads past their
`push_back`; (C) with no thread mid-push the window is exactly the window
determined by all pushed prices; (D)/(E) a thread between its two pushes the
window lags by exactly the price of the last stored tick. -/
def ConcInv (n : ℕ) (ticks : Fin n → PriceUpdate) (s : Conc n) : Prop :=
  (∀ i : Fin n, (s.pcs i).inCS = true → s.lock = some i) ∧
  (s.shared.received_prices.length =
    ∑ j : Fin n, if (s.pcs j).pastTick = true then 1 else 0) ∧
  ((∀ j : Fin n, s.pcs j ≠ PC.pushedTick ∧ s.pcs j ≠ PC.pushedPrice) →
    s.shared.price_window =
      windowOf (s.shared.received_prices.map (fun u => u.price))) ∧
  (∀ j : Fin n, s.pcs j = PC.pushedTick →
    s.shared.price_window =
      windowOf ((s.shared.received_prices.dropLast).map (fun u => u.price)) ∧
    s.shared.received_prices.getLast? = some (ticks j)) ∧
  (∀ j : Fin n, s.pcs j = PC.pushedPrice →
    s.shared.price_window =
      windowOf ((s.shared.received_prices.dropLast).map (fun u => u.price))
        ++ [(ticks j).price] ∧
    s.shared.received_prices.getLast? = some (ticks j))

theorem inCS_false_not_mid (pc : PC) (h : pc.inCS = false) :
    pc ≠ PC.pushedTick ∧ pc ≠ PC.pushedPrice := by
  cases pc <;> simp_all [PC.inCS]

theorem onlyHolder (n : ℕ) (s : Conc n)
    (hA : ∀ i : Fin n, (s.pcs i).inCS = true → s.lock = some i)
    (i : Fin n) (hi : (s.pcs i).inCS = true) :
    ∀ j : Fin n, j ≠ i → (s.pcs j).inCS = false := by
  intro j hj
  cases hx : (s.pcs j).inCS
  · rfl
  · have h1 := hA i hi
    have h2 := hA j hx
    rw [h1] at h2
    exact absurd (Option.some.inj h2).symm hj

theorem sum_ind_update_eq (n : ℕ) (pcs : Fin n → PC) (i : Fin n) (v : PC)
    (P : PC → Bool) (h : P v = P (pcs i)) :
    (∑ j : Fin n, if P (Function.update pcs i v j) = true then 1 else 0) =
      ∑ j : Fin n, if P (pcs j) = true then 1 else 0 := by
  refine Finset.sum_congr rfl (fun j hj => ?_)
  by_cases hji : j = i
  · subst hji
    rw [Function.update_same, h]
  · rw [Function.update_noteq hji]

theorem sum_ind_update_add_one (n : ℕ) (pcs : Fin n → PC) (i : Fin n) (v : PC)
    (P : PC → Bool) (hv : P v = true) (hi : P (pcs i) = false) :
    (∑ j : Fin n, if P (Function.update pcs i v j) = true then 1 else 0) =
      (∑ j : Fin n, if P (pcs j) = true then 1 else 0) + 1 := by
  have hfun : (fun j => if P (Function.update pcs i v j) = true then (1 : ℕ) else 0)
      = Function.update (fun j => if P (pcs j) = true then (1 : ℕ) else 0) i
          (if P v = true then 1 else 0) := by
    funext j
    by_cases hji : j = i
    · subst hji
      rw [Function.update_same, Function.update_same]
    · rw [Function.update_noteq hji, Function.update_noteq hji]
  have h1 : (∑ j : Fin n, if P (Function.update pcs i v j) = true then (1 : ℕ) else 0)
      = (if P v = true then (1 : ℕ) else 0)
        + ∑ x ∈ Finset.univ \ {i}, if P (pcs x) = true then (1 : ℕ) else 0 := by
    rw [show (∑ j : Fin n, if P (Function.update pcs i v j) = true then (1 : ℕ) else 0)
        = ∑ j : Fin n, Function.update
            (fun j => if P (pcs j) = true then (1 : ℕ) else 0) i
            (if P v = true then (1 : ℕ) else 0) j from by rw [← hfun]]
    exact Finset.sum_update_of_mem (Finset.mem_univ i)
      (fun j => if P (pcs j) = true then (1 : ℕ) else 0)
      (if P v = true then (1 : ℕ) else 0)
  have h2 : (∑ j : Fin n, if P (pcs j) = true then (1 : ℕ) else 0)
      = (if P (pcs i) = true then (1 : ℕ) else 0)
        + ∑ x ∈ Finset.univ \ {i}, if P (pcs x) = true then (1 : ℕ) else 0 :=
    Finset.sum_eq_add_sum_diff_singleton (Finset.mem_univ i)
      (fun j => if P (pcs j) = true then (1 : ℕ) else 0)
  rw [h1, h2, hv, hi]
  simp [Nat.add_comm]

theorem window_recompose (received : List PriceUpdate) (t : PriceUpdate)
    (hlast : received.getLast? = some t) :
    windowOf (received.map (fun u => u.price)) =
      pushWindow (windowOf ((received.dropLast).map (fun u => u.price)))
        t.price := by
  have hne : received ≠ [] := by
    intro h
    rw [h] at hlast
    simp at hlast
  have h2 : received.getLast hne = t := by
    have h3 := List.getLast?_eq_getLast received hne
    rw [h3] at hlast
    exact Option.some.inj hlast
  have hdecomp : received = received.dropLast ++ [t] := by
    conv_lhs => rw [← List.dropLast_concat_getLast hne]
    rw [h2]
  conv_lhs => rw [hdecomp]
  rw [List.map_append, List.map_singleton, windowOf_append_singleton]

theorem concInv_init (n : ℕ) (ticks : Fin n → PriceUpdate) :
    ConcInv n ticks (concInit n) := by
  refine ⟨?_, ?_, ?_, ?_, ?_⟩
  · intro i hi
    simp [concInit, PC.inCS] at hi
  · simp [concInit, initState, PC.pastTick]
  · intro hno
    simp [concInit, initState, windowOf]
  · intro j hj
    simp [concInit] at hj
  · intro j hj
    simp [concInit] at hj

theorem concInv_step (n : ℕ) (ticks : Fin n → PriceUpdate) (s s' : Conc n)
    (hstep : ConcStep n ticks s s') (hinv : ConcInv n ticks s) :
    ConcInv n ticks s' := by
  obtain ⟨hA, hB, hC, hD, hE⟩ := hinv
  cases hstep with
  | acquire i s hpc hlock =>
    refine ⟨?_, ?_, ?_, ?_, ?_⟩ <;> dsimp only
    · intro j hj
      by_cases hji : j = i
      · subst hji; rfl
      · rw [Function.update_noteq hji] at hj
        have hcon := hA j hj
        rw [hlock] at hcon
        simp at hcon
    · show s.shared.received_prices.length = _
      rw [hB]
      refine (sum_ind_update_eq n s.pcs i PC.locked PC.pastTick ?_).symm
      rw [hpc]
      rfl
    · intro hno
      refine hC ?_
      intro j
      by_cases hji : j = i
      · subst hji
        rw [hpc]
        exact ⟨by simp, by simp⟩
      · have hj := hno j
        rw [Function.update_noteq hji] at hj
        exact hj
    · intro j hj
      by_cases hji : j = i
      · subst hji
        rw [Function.update_same] at hj
        simp at hj
      · rw [Function.update_noteq hji] at hj
        exact hD j hj
    · intro j hj
      by_cases hji : j = i
      · subst hji
        rw [Function.update_same] at hj
        simp at hj
      · rw [Function.update_noteq hji] at hj
        exact hE j hj
  | pushTick i s hpc =>
    have hiCS : (s.pcs i).inCS = true := by rw [hpc]; rfl
    have hlock := hA i hiCS
    have honly := onlyHolder n s hA i hiCS
    have hnomid : ∀ j : Fin n,
        s.pcs j ≠ PC.pushedTick ∧ s.pcs j ≠ PC.pushedPrice := by
      intro j
      by_cases hji : j = i
      · subst hji
        rw [hpc]
        exact ⟨by simp, by simp⟩
      · exact inCS_false_not_mid _ (honly j hji)
    have hwin := hC hnomid
    refine ⟨?_, ?_, ?_, ?_, ?_⟩ <;> dsimp only
    · intro j hj
      by_cases hji : j = i
      · subst hji
        exact hlock
      · rw [Function.update_noteq hji] at hj
        exact hA j hj
    · show (s.shared.received_prices ++ [ticks i]).length = _
      rw [List.length_append, List.length_singleton, hB]
      refine (sum_ind_update_add_one n s.pcs i PC.pushedTick PC.pastTick rfl ?_).symm
      rw [hpc]
      rfl
    · intro hno
      exact absurd (Function.update_same i PC.pushedTick s.pcs) (hno i).1
    · intro j hj
      by_cases hji : j = i
      · subst hji
        constructor
        · show s.shared.price_window =
            windowOf (((s.shared.received_prices ++ [ticks j]).dropLast).map
              (fun u => u.price))
          rw [List.dropLast_concat, hwin]
        · show (s.shared.received_prices ++ [ticks j]).getLast? = _
          rw [List.getLast?_concat]
      · rw [Function.update_noteq hji] at hj
        exact absurd hj (hnomid j).1
    · intro j hj
      by_cases hji : j = i
      · subst hji
        rw [Function.update_same] at hj
        simp at hj
      · rw [Function.update_noteq hji] at hj
        exact absurd hj (hnomid j).2
  | pushPrice i s hpc =>
    have hiCS : (s.pcs i).inCS = true := by rw [hpc]; rfl
    have hlock := hA i hiCS
    have honly := onlyHolder n s hA i hiCS
    have hDi := hD i hpc
    refine ⟨?_, ?_, ?_, ?_, ?_⟩ <;> dsimp only
    · intro j hj
      by_cases hji : j = i
      · subst hji
        exact hlock
      · rw [Function.update_noteq hji] at hj
        exact hA j hj
    · show s.shared.received_prices.length = _
      rw [hB]
      refine (sum_ind_update_eq n s.pcs i PC.pushedPrice PC.pastTick ?_).symm
      rw [hpc]
      rfl
    · intro hno
      exact absurd (Function.update_same i PC.pushedPrice s.pcs) (hno i).2
    · intro j hj
      by_cases hji : j = i
      · subst hji
        rw [Function.update_same] at hj
        simp at hj
      · rw [Function.update_noteq hji] at hj
        have hjCS : (s.pcs j).inCS = true := by rw [hj]; rfl
        have hcon := honly j hji
        rw [hjCS] at hcon
        simp at hcon
    · intro j hj
      by_cases hji : j = i
      · subst hji
        constructor
        · show s.shared.price_window ++ [(ticks j).price] = _
          rw [hDi.1]
        · exact hDi.2
      · rw [Function.update_noteq hji] at hj
        have hjCS : (s.pcs j).inCS = true := by rw [hj]; rfl
        have hcon := honly j hji
        rw [hjCS] at hcon
        simp at hcon
  | evict i s hpc =>
    have hiCS : (s.pcs i).inCS = true := by rw [hpc]; rfl
    have hlock := hA i hiCS
    have honly := onlyHolder n s hA i hiCS
    have hEi := hE i hpc
    have hwin' : (if WINDOW_SIZE < s.shared.price_window.length then
        s.shared.price_window.tail else s.shared.price_window) =
        windowOf (s.shared.received_prices.map (fun u => u.price)) := by
      rw [hEi.1, window_recompose s.shared.received_prices (ticks i) hEi.2]
      rfl
    refine ⟨?_, ?_, ?_, ?_, ?_⟩ <;> dsimp only
    · intro j hj
      by_cases hji : j = i
      · subst hji
        exact hlock
      · rw [Function.update_noteq hji] at hj
        exact hA j hj
    · show s.shared.received_prices.length = _
      rw [hB]
      refine (sum_ind_update_eq n s.pcs i PC.evicted PC.pastTick ?_).symm
      rw [hpc]
      rfl
    · intro hno
      exact hwin'
    · intro j hj
      by_cases hji : j = i
      · subst hji
        rw [Function.update_same] at hj
        simp at hj
      · rw [Function.update_noteq hji] at hj
        have hjCS : (s.pcs j).inCS = true := by rw [hj]; rfl
        have hcon := honly j hji
        rw [hjCS] at hcon
        simp at hcon
    · intro j hj
      by_cases hji : j = i
      · subst hji
        rw [Function.update_same] at hj
        simp at hj
      · rw [Function.update_noteq hji] at hj
        have hjCS : (s.pcs j).inCS = true := by rw [hj]; rfl
        have hcon := honly j hji
        rw [hjCS] at hcon
        simp at hcon
  | release i s hpc =>
    have hiCS : (s.pcs i).inCS = true := by rw [hpc]; rfl
    have honly := onlyHolder n s hA i hiCS
    refine ⟨?_, ?_, ?_, ?_, ?_⟩ <;> dsimp only
    · intro j hj
      by_cases hji : j = i
      · subst hji
        rw [Function.update_same] at hj
        simp [PC.inCS] at hj
      · rw [Function.update_noteq hji] at hj
        have hcon := honly j hji
        rw [hj] at hcon
        simp at hcon
    · show s.shared.received_prices.length = _
      rw [hB]
      refine (sum_ind_update_eq n s.pcs i PC.done PC.pastTick ?_).symm
      rw [hpc]
      rfl
    · intro hno
      refine hC ?_
      intro j
      by_cases hji : j = i
      · subst hji
        rw [hpc]
        exact ⟨by simp, by simp⟩
      · have hj := hno j
        rw [Function.update_noteq hji] at hj
        exact hj
    · intro j hj
      by_cases hji : j = i
      · subst hji
        rw [Function.update_same] at hj
        simp at hj
      · rw [Function.update_noteq hji] at hj
        exact hD j hj
    · intro j hj
      by_cases hji : j = i
      · subst hji
        rw [Function.update_same] at hj
        simp at hj
      · rw [Function.update_noteq hji] at hj
        exact hE j hj

theorem concInv_reach (n : ℕ) (ticks : Fin n → PriceUpdate) (s : Conc n)
    (h : ConcReach n ticks s) : ConcInv n ticks s := by
  induction h with
  | refl => exact concInv_init n ticks
  | tail hab hbc ih => exact concInv_step n ticks _ _ hbc ih

/-- C9: under the `price_mutex` interleaving semantics, concurrent `SendPrice`
calls are atomic and lose no updates: in every reachable state (a) at most one
thread is inside the critical section (mutual exclusion), (b) whenever the
mutex is free — i.e. whenever any reader could acquire it and observe the
window — the window is exactly the window determined by all stored prices,
never a torn mid-push state, and (c) once all `n` callers have completed, the
tick history holds exactly `n` entries. -/
theorem C9_thm (n : ℕ) (ticks : Fin n → PriceUpdate) (s : Conc n)
    (h : ConcReach n ticks s) :
    (∀ i j : Fin n, (s.pcs i).inCS = true → (s.pcs j).inCS = true → i = j) ∧
    (s.lock = none →
      s.shared.price_window =
        windowOf (s.shared.received_prices.map (fun u => u.price))) ∧
    ((∀ i : Fin n, s.pcs i = PC.done) →
      s.shared.received_prices.length = n) := by
  obtain ⟨hA, hB, hC, hD, hE⟩ := concInv_reach n ticks s h
  refine ⟨?_, ?_, ?_⟩
  · intro i j hi hj
    have h1 := hA i hi
    have h2 := hA j hj
    rw [h1] at h2
    exact Option.some.inj h2
  · intro hnone
    refine hC ?_
    intro j
    refine inCS_false_not_mid _ ?_
    cases hx : (s.pcs j).inCS
    · rfl
    · rw [hA j hx] at hnone
      simp at hnone
  · intro hdone
    rw [hB]
    have hone : ∀ j : Fin n,
        (if (s.pcs j).pastTick = true then (1 : ℕ) else 0) = 1 := by
      intro j
      rw [hdone j]
      rfl
    rw [Finset.sum_congr rfl (fun j _ => hone j)]
    simp

/-! A concrete complete execution of one `SendPrice` caller, used as a
witness that the hypotheses of `C9_thm` are satisfiable. -/

def tk1 : Fin 1 → PriceUpdate := fun _ => tickA

def c1 : Conc 1 :=
  ⟨some 0, ⟨[], []⟩, Function.update (fun _ => PC.start) 0 PC.locked⟩

def c2 : Conc 1 :=
  ⟨some 0, ⟨[tickA], []⟩, Function.update c1.pcs 0 PC.pushedTick⟩

def c3 : Conc 1 :=
  ⟨some 0, ⟨[tickA], [tickA.price]⟩, Function.update c2.pcs 0 PC.pushedPrice⟩

def c4 : Conc 1 :=
  ⟨some 0, ⟨[tickA], [tickA.price]⟩, Function.update c3.pcs 0 PC.evicted⟩

def c5 : Conc 1 :=
  ⟨none, ⟨[tickA], [tickA.price]⟩, Function.update c4.pcs 0 PC.done⟩

theorem concReach_c5 : ConcReach 1 tk1 c5 :=
  Relation.ReflTransGen.tail
    (Relation.ReflTransGen.tail
      (Relation.ReflTransGen.tail
        (Relation.ReflTransGen.tail
          (Relation.ReflTransGen.tail Relation.ReflTransGen.refl
            (ConcStep.acquire 0 (concInit 1) rfl rfl))
          (ConcStep.pushTick 0 c1 rfl))
        (ConcStep.pushPrice 0 c2 rfl))
      (ConcStep.evict 0 c3 rfl))
    (ConcStep.release 0 c4 rfl)

/-- C9 (witness): after the single caller of the concrete execution
`concReach_c5` completes, the mutex is free, the tick history holds exactly
one entry, and the window agrees with the stored prices. -/
theorem C9_witness :
    c5.shared.received_prices.length = 1 ∧
    c5.shared.price_window =
      windowOf (c5.shared.received_prices.map (fun u => u.price)) := by
  have h := C9_thm 1 tk1 c5 concReach_c5
  refine ⟨h.2.2 ?_, h.2.1 rfl⟩
  intro i
  rcases i with ⟨iv, hiv⟩
  interval_cases iv
  rfl
